import Mathlib

/-!
Verification of the numerical core of the `aiida-epw` repository.

Part 1 embeds the physical-quantity calculators of
`src/aiida_epw/tools/calculators.py` and the `calculate_tc` helper of
`src/aiida_epw/workflows/supercon.py` as functions over the real numbers.
Python floats are modelled as exact reals; a computation that raises a
Python exception is modelled by `Option` (`none` = the call raises).

Part 2 embeds the text parsers of `src/aiida_epw/tools/parsers.py` over
`List Char` (file contents) with numeric values modelled as exact
rationals; a parse that raises is again modelled by `none`.
-/

namespace AiidaEpw

/-! ### Part 1: calculators (`src/aiida_epw/tools/calculators.py`) -/

/-- Conversion constant, `calculators.py` line 9. -/
noncomputable def meV_to_Kelvin : ℝ := 11.604518121550082

/-- Embedding of `allen_dynes` (`calculators.py` lines 12-21).

```
if lambo - mu_star * (1 + 0.62 * lambo) < 0: return 0
else: return omega_log * exp(-1.04*(1+lambo)/(lambo - mu_star*(1+0.62*lambo))) / 1.2
```

When the guard fails and the denominator `lambo - mu_star*(1+0.62*lambo)`
is exactly zero, the Python float division in the `else` branch raises
`ZeroDivisionError`; this is modelled by `none`. -/
noncomputable def allen_dynes (lambo omega_log mu_star : ℝ) : Option ℝ :=
  if lambo - mu_star * (1 + 0.62 * lambo) < 0 then some 0
  else if lambo - mu_star * (1 + 0.62 * lambo) = 0 then none
  else some (omega_log *
      Real.exp (-1.04 * (1 + lambo) / (lambo - mu_star * (1 + 0.62 * lambo))) / 1.2)

/-- Embedding of `numpy.trapezoid y x`: the composite trapezoidal rule
`Σ (x[i+1]-x[i]) * (y[i]+y[i+1]) / 2` over consecutive sample points. -/
noncomputable def trapezoid : List ℝ → List ℝ → ℝ
  | y0 :: y1 :: ys, x0 :: x1 :: xs =>
      (x1 - x0) * (y0 + y1) / 2 + trapezoid (y1 :: ys) (x1 :: xs)
  | _, _ => 0

/-- Embedding of `calculate_lambda_omega` (`calculators.py` lines 24-40).
Elementwise numpy expressions `spectrum / frequency` and
`spectrum / frequency * log(frequency)` become `List.zipWith`. -/
noncomputable def calculate_lambda_omega (frequency spectrum : List ℝ) : ℝ × ℝ :=
  let lambda_ := 2 * trapezoid (List.zipWith (fun s f => s / f) spectrum frequency) frequency
  let omega_log := Real.exp (2 / lambda_ *
      trapezoid (List.zipWith (fun s f => s / f * Real.log f) spectrum frequency) frequency)
  (lambda_, omega_log * meV_to_Kelvin)

/-- Result of `_calculate_iso_tc`: an ordinary float (`tc`) or the IEEE
`nan` produced by `numpy.nan` / a `0/0` slope. -/
inductive IsoTc where
  | tc (x : ℝ)
  | nan

/-- Ordering of `(eigenvalue, temperature)` pairs by eigenvalue, used to
model `scipy.interpolate.interp1d`'s internal stable `argsort` of its `x`
input (`assume_sorted=False`). -/
def leFst (a b : ℝ × ℝ) : Prop := a.1 ≤ b.1

noncomputable instance : DecidableRel leFst :=
  fun a b => inferInstanceAs (Decidable (a.1 ≤ b.1))

instance : IsTotal (ℝ × ℝ) leFst := ⟨fun a b => le_total a.1 b.1⟩

instance : IsTrans (ℝ × ℝ) leFst := ⟨fun _ _ _ h1 h2 => le_trans h1 h2⟩

/-- Stable sort of `(x, y)` pairs by `x`, modelling
`ind = argsort(x, kind="mergesort"); x = x[ind]; y = y[ind]` inside
`interp1d`. -/
noncomputable def sortByEv (l : List (ℝ × ℝ)) : List (ℝ × ℝ) :=
  List.insertionSort leFst l

/-- Maximum of a numpy 1-D array (`arr.max()`); only used on non-empty
lists (numpy raises on an empty array). -/
noncomputable def npMax : List ℝ → ℝ
  | [] => 0
  | x :: xs => xs.foldl max x

/-- Minimum of a numpy 1-D array (`arr.min()`); only used on non-empty
lists. -/
noncomputable def npMin : List ℝ → ℝ
  | [] => 0
  | x :: xs => xs.foldl min x

/-- Linear interpolation of `numpy.interp t` over an `x`-sorted list of
`(x, y)` points for a query inside the data range: scan for the first
interval whose right endpoint strictly exceeds `t`; past the last point,
return the last `y`.  This is the evaluation path that
`interp1d(x, y)(t)` takes for in-range `t` (it delegates to
`numpy.interp`). -/
noncomputable def npInterp (t : ℝ) : List (ℝ × ℝ) → ℝ
  | [] => 0
  | [(_, y)] => y
  | (x0, y0) :: (x1, y1) :: rest =>
      if t < x1 then y0 + (y1 - y0) * (t - x0) / (x1 - x0)
      else npInterp t ((x1, y1) :: rest)

/-- Evaluation at `1.0` of
`interp1d(x, y, kind="linear", bounds_error=False, fill_value="extrapolate")`
on an `x`-sorted list when the query lies strictly below every `x`
(the only situation in which `_calculate_iso_tc` calls it): scipy's
`_call_linear` then uses the line through the first two sorted points.
With a single data point the slope is `0/0 = nan`, hence the result is
the IEEE `nan` (no exception is raised). -/
noncomputable def extrapolateAtOne : List (ℝ × ℝ) → IsoTc
  | (x0, y0) :: (x1, y1) :: _ => .tc (y0 + (y1 - y0) * (1 - x0) / (x1 - x0))
  | _ => .nan

/-- Embedding of `_calculate_iso_tc` (`calculators.py` lines 43-63).
Rows of `max_eigenvalue` are `(temperature, eigenvalue)` pairs.
On an empty table `max_eigenvalue[:, 1].max()` raises (`none`).
`interp1d(max_eigenvalue[:, 1], max_eigenvalue[:, 0])` swaps each row to
`(eigenvalue, temperature)` and sorts by eigenvalue. -/
noncomputable def _calculate_iso_tc (max_eigenvalue : List (ℝ × ℝ))
    (allow_extrapolation : Bool) : Option IsoTc :=
  match max_eigenvalue with
  | [] => none
  | r :: rs =>
    let evs := (r :: rs).map Prod.snd
    if npMax evs < 1 then some (.tc 0)
    else if 1 < npMin evs then
      if allow_extrapolation then
        some (extrapolateAtOne (sortByEv ((r :: rs).map Prod.swap)))
      else some .nan
    else some (.tc (npInterp 1 (sortByEv ((r :: rs).map Prod.swap))))

/-- Embedding of `calculate_tc` (`workflows/supercon.py` lines 37-43).

```
try: return float(interp1d(me_array[:, 1], me_array[:, 0])(1.0))
except ValueError: return 40.0
```

`interp1d` raises `ValueError` exactly when the arrays are empty or the
query `1.0` lies outside `[min(eigenvalues), max(eigenvalues)]`
(its bounds check); the `except` then yields the fallback `40.0`. -/
noncomputable def calculate_tc (me_array : List (ℝ × ℝ)) : ℝ :=
  match me_array with
  | [] => 40
  | r :: rs =>
    let evs := (r :: rs).map Prod.snd
    if 1 < npMin evs ∨ npMax evs < 1 then 40
    else npInterp 1 (sortByEv ((r :: rs).map Prod.swap))

/-! ### Spec-side reference definitions (from the specification's words,
for comparison with the source-derived definitions above) -/

/-- Reference trapezoidal quadrature, written as an index sum (the
"SciPy-equivalent reference" of the spec's trapezoidal scenario):
`Σ_i (x[i+1] - x[i]) * (y[i] + y[i+1]) / 2`. -/
noncomputable def trapezoidRef (y x : List ℝ) : ℝ :=
  ∑ i in Finset.range (x.length - 1),
    (x.getD (i + 1) 0 - x.getD i 0) * (y.getD i 0 + y.getD (i + 1) 0) / 2

/-- The spec's formula `λ = 2 ∫ (a2F(ω)/ω) dω` under reference
trapezoidal quadrature over the frequency samples. -/
noncomputable def lambdaRef (frequency spectrum : List ℝ) : ℝ :=
  2 * ∑ i in Finset.range (frequency.length - 1),
    (frequency.getD (i + 1) 0 - frequency.getD i 0) *
      (spectrum.getD i 0 / frequency.getD i 0 +
       spectrum.getD (i + 1) 0 / frequency.getD (i + 1) 0) / 2

/-- The spec's formula `ω_log = exp((2/λ) ∫ (a2F(ω)/ω) ln ω dω)` under
reference trapezoidal quadrature, converted to Kelvin by the fixed
constant. -/
noncomputable def omegaLogRef (frequency spectrum : List ℝ) : ℝ :=
  Real.exp (2 / lambdaRef frequency spectrum *
    ∑ i in Finset.range (frequency.length - 1),
      (frequency.getD (i + 1) 0 - frequency.getD i 0) *
        (spectrum.getD i 0 / frequency.getD i 0 * Real.log (frequency.getD i 0) +
         spectrum.getD (i + 1) 0 / frequency.getD (i + 1) 0 *
           Real.log (frequency.getD (i + 1) 0)) / 2) * meV_to_Kelvin

/-- `a` and `b` are adjacent entries of `ps`, or `ps` ends at `a = b`:
the two data points of the segment of a piecewise-linear interpolant that
a query can fall into (the degenerate second case is a query sitting on
the last data point). -/
def AdjOrEnd (ps : List (ℝ × ℝ)) (a b : ℝ × ℝ) : Prop :=
  (∃ n, ps.get? n = some a ∧ ps.get? (n + 1) = some b) ∨ (a = b ∧ ps.getLast? = some a)

/-! ### Part 2: parsers (`src/aiida_epw/tools/parsers.py`)

File contents are `List Char`; numeric values are exact rationals (the
claims under verification only depend on parse success, shapes, keys and
small decimal values, never on double rounding).  A parser that raises a
Python exception returns `none`. -/

/-- Python `\s` on ASCII text: the whitespace characters recognised by
`str.split()` and the `re` module. -/
def isPySpace (c : Char) : Bool :=
  c = ' ' ∨ c = '\t' ∨ c = '\n' ∨ c = '\r' ∨ c = '\x0b' ∨ c = '\x0c'

/-- Character class `[\d\.]` of the max-eigenvalue row pattern. -/
def isDigitDot (c : Char) : Bool := c.isDigit ∨ c = '.'

/-- Character class `[\d\.-]` of the max-eigenvalue row pattern. -/
def isDigitDotDash (c : Char) : Bool := c.isDigit ∨ c = '.' ∨ c = '-'

/-- Numeric value of a string of decimal digits. -/
def digitsToNat : List Char → Nat :=
  List.foldl (fun n c => 10 * n + (c.toNat - 48)) 0

/-- Exponent suffix of a Python float literal: in `1.5e-3`, the part
after the `e`.  Fails unless it is `[+-]?digits`; otherwise scales the
mantissa fraction `num / den` by `10 ^ exponent`.  (The rational is
assembled with `mkRat` over integer arithmetic, which the kernel can
evaluate; the value is the same as multiplying by a power of ten.) -/
def pyExpPart (num : ℤ) (den : ℕ) (l : List Char) : Option ℚ :=
  let (eneg, l1) : Bool × List Char :=
    match l with
    | '+' :: r => (false, r)
    | '-' :: r => (true, r)
    | r => (false, r)
  let ds := l1.takeWhile Char.isDigit
  if ds = [] ∨ l1.dropWhile Char.isDigit ≠ [] then none
  else if eneg then some (mkRat num (den * 10 ^ digitsToNat ds))
  else some (mkRat (num * 10 ^ digitsToNat ds) den)

/-- Python `float(token)` on a whitespace-free token, restricted to the
plain decimal grammar `[+-]? (digits [. digits?] | . digits) ([eE][+-]?digits)?`
(the only shapes the parsed files contain); anything else - in particular
`"."`, `"-"`, `"1.2.3"`, `"1-2"` or the empty string - raises
`ValueError`, i.e. returns `none`.  The value `ip.fp` equals
`digits(ip ++ fp) / 10 ^ fp.length`, assembled with `mkRat`. -/
def pyFloat? (l : List Char) : Option ℚ :=
  let (sgn, l1) : ℤ × List Char :=
    match l with
    | '+' :: r => (1, r)
    | '-' :: r => (-1, r)
    | r => (1, r)
  let ip := l1.takeWhile Char.isDigit
  let rest1 := l1.dropWhile Char.isDigit
  match rest1 with
  | [] => if ip = [] then none else some (mkRat (sgn * digitsToNat ip) 1)
  | '.' :: rest2 =>
    let fp := rest2.takeWhile Char.isDigit
    let rest3 := rest2.dropWhile Char.isDigit
    if ip = [] ∧ fp = [] then none
    else
      match rest3 with
      | [] => some (mkRat (sgn * digitsToNat (ip ++ fp)) (10 ^ fp.length))
      | e :: rest4 =>
          if e = 'e' ∨ e = 'E' then
            pyExpPart (sgn * digitsToNat (ip ++ fp)) (10 ^ fp.length) rest4
          else none
  | e :: rest2 =>
      if (e = 'e' ∨ e = 'E') ∧ ip ≠ [] then pyExpPart (sgn * digitsToNat ip) 1 rest2
      else none

/-- Does the sequence start with the given pattern? -/
def leadsWith : List Char → List Char → Bool
  | [], _ => true
  | _ :: _, [] => false
  | a :: as, b :: bs => a = b && leadsWith as bs

/-- Does the pattern occur contiguously anywhere in the sequence
(Python `pat in line`)? -/
def containsSeq (pat : List Char) : List Char → Bool
  | [] => leadsWith pat []
  | c :: rest => leadsWith pat (c :: rest) || containsSeq pat rest

/-- Fuel-driven worker for `splitOnSeq`; the fuel is an upper bound on
the number of characters still to be scanned. -/
def splitOnSeqF (sep : List Char) : Nat → List Char → List (List Char)
  | _, [] => [[]]
  | 0, l => [l]
  | fuel + 1, c :: rest =>
    if sep ≠ [] ∧ leadsWith sep (c :: rest) then
      [] :: splitOnSeqF sep fuel (List.drop sep.length (c :: rest))
    else
      match splitOnSeqF sep fuel rest with
      | [] => [[c]]
      | t :: ts => (c :: t) :: ts

/-- Python `text.split(sep)` for a non-empty separator: the fragments
between consecutive non-overlapping leftmost occurrences of `sep`. -/
def splitOnSeq (sep l : List Char) : List (List Char) :=
  splitOnSeqF sep l.length l

/-- Python `text.split(sep)[0]`: the portion of the text preceding the
first occurrence of `sep` (the whole text when `sep` is absent). -/
def beforeSeq (sep l : List Char) : List Char :=
  (splitOnSeq sep l).headD []

/-- Worker for `splitOnChar`, accumulating the current fragment in
reverse. -/
def splitOnCharAux (sep : Char) : List Char → List Char → List (List Char)
  | acc, [] => [acc.reverse]
  | acc, c :: rest =>
    if c = sep then acc.reverse :: splitOnCharAux sep [] rest
    else splitOnCharAux sep (c :: acc) rest

/-- Python `text.split(c)` for a single-character separator: keeps empty
fragments, never returns an empty list. -/
def splitOnChar (sep : Char) (l : List Char) : List (List Char) :=
  splitOnCharAux sep [] l

/-- Worker for `pyWords`, accumulating the current word in reverse. -/
def pyWordsAux : List Char → List Char → List (List Char)
  | acc, [] => if acc = [] then [] else [acc.reverse]
  | acc, c :: rest =>
    if isPySpace c then
      if acc = [] then pyWordsAux [] rest
      else acc.reverse :: pyWordsAux [] rest
    else pyWordsAux (c :: acc) rest

/-- Python `line.split()` with no argument: maximal runs of
non-whitespace characters; leading/trailing/repeated whitespace yields no
empty words. -/
def pyWords (l : List Char) : List (List Char) :=
  pyWordsAux [] l

/-- Characters removed by `line.strip("# ")`. -/
def isHashSpace (c : Char) : Bool := c = '#' ∨ c = ' '

/-- Python `line.strip("# ")`: drop leading and trailing `#` and space
characters. -/
def pyStripHashSpace (l : List Char) : List Char :=
  ((l.dropWhile isHashSpace).reverse.dropWhile isHashSpace).reverse

/-- Option-valued map over a list, failing as soon as one element fails
(the effect of a Python loop whose body may raise). -/
def optMapM (f : α → Option β) : List α → Option (List β)
  | [] => some []
  | a :: as => (f a).bind fun b => (optMapM f as).map fun bs => b :: bs

/-- Result of a successful `parse_epw_a2f`.  The four array fields are
always set by the code; the three scalar fields are only set when the
corresponding label line occurs in the footer, so they are `Option`s
(`none` = key absent from the returned dictionary). -/
structure A2FData where
  frequency : List ℚ
  a2f : List (List ℚ)
  lambda_ : List ℚ
  phonon_smearing : List ℚ
  electron_smearing : Option ℚ
  fermi_window : Option ℚ
  summed_elph_coupling : Option ℚ
  deriving DecidableEq

/-- Split marker of the `.a2f` file, `parsers.py` line 14. -/
def markerA2F : List Char := "\n Integrated el-ph coupling".data

/-- Footer label for the electron smearing scalar. -/
def keyElectron : List Char := "Electron smearing (eV)".data

/-- Footer label for the Fermi window scalar. -/
def keyFermi : List Char := "Fermi window (eV)".data

/-- Footer label for the summed el-ph coupling scalar. -/
def keySummed : List Char := "Summed el-ph coupling".data

/-- The tuple unpacking `a2f, footer = file_content.split("\n Integrated
el-ph coupling")`: succeeds only when the marker occurs exactly once
(`ValueError` otherwise). -/
def a2fSplit (s : List Char) : Option (List Char × List Char) :=
  match splitOnSeq markerA2F s with
  | [a, b] => some (a, b)
  | _ => none

/-- The numeric table of the `.a2f` file (`parsers.py` lines 16-18):
`numpy.array([line.split() for line in a2f.split("\n")], dtype=float)`
requires every token to parse as a float and every row to have the same
length (`ValueError` otherwise), and `a2f_array[:, 0]` requires at least
one column (`IndexError` on zero columns).  Returns the pair
`(frequency, a2f)` = (column 0, remaining columns). -/
def a2fTable (p : List Char) : Option (List ℚ × List (List ℚ)) :=
  (optMapM (fun line => optMapM pyFloat? (pyWords line)) (splitOnChar '\n' p)).bind
    fun tokRows =>
      if 0 < (tokRows.headD []).length ∧
          tokRows.all (fun r => r.length = (tokRows.headD []).length) then
        some (tokRows.map (fun r => r.headD 0), tokRows.map List.tail)
      else none

/-- The positional footer arrays (`parsers.py` lines 20-24):
`footer[1]` and `footer[3]` must exist (`IndexError` otherwise) and every
token on them after `strip("# ")` must parse as a float. -/
def a2fFooterData (fLines : List (List Char)) : Option (List ℚ × List ℚ) :=
  (fLines.get? 1).bind fun l1 =>
  (fLines.get? 3).bind fun l3 =>
  (optMapM pyFloat? (pyWords (pyStripHashSpace l1))).bind fun lam =>
  (optMapM pyFloat? (pyWords (pyStripHashSpace l3))).map fun ph => (lam, ph)

/-- One step of the scalar-label scan (`parsers.py` lines 31-34): when
`key` occurs in `line`, set the field to `float(line.split()[-1])`
(raising, i.e. `none`, when the line has no words or the last word is not
a float); otherwise keep the current value. -/
def updScalar (key line : List Char) (cur : Option ℚ) : Option (Option ℚ) :=
  if containsSeq key line then
    ((pyWords line).getLast?).bind fun w => (pyFloat? w).map fun v => some v
  else some cur

/-- The scalar-label scan over all footer lines, in source order of the
`key_property_dict` (electron smearing, Fermi window, summed coupling);
a later matching line overwrites an earlier value. -/
def scanScalars : List (List Char) → Option ℚ × Option ℚ × Option ℚ →
    Option (Option ℚ × Option ℚ × Option ℚ)
  | [], st => some st
  | line :: rest, (e, fw, se) =>
    (updScalar keyElectron line e).bind fun e' =>
    (updScalar keyFermi line fw).bind fun fw' =>
    (updScalar keySummed line se).bind fun se' =>
    scanScalars rest (e', fw', se')

/-- The footer lines of an `.a2f` text (empty when the marker split
fails); used to state properties of the scalar fields. -/
def a2fFooterLines (s : List Char) : List (List Char) :=
  match a2fSplit s with
  | some (_, fp) => splitOnChar '\n' fp
  | none => []

/-- Embedding of `parse_epw_a2f` (`parsers.py` lines 10-36). -/
def parse_epw_a2f (s : List Char) : Option A2FData :=
  (a2fSplit s).bind fun pr =>
  (a2fTable pr.1).bind fun ta =>
  (a2fFooterData (splitOnChar '\n' pr.2)).bind fun fo =>
  (scanScalars (splitOnChar '\n' pr.2) (none, none, none)).map fun st =>
  ⟨ta.1, ta.2, fo.1, fo.2, st.1, st.2.1, st.2.2⟩

/-- Termination marker of the linearized Eliashberg block,
`parsers.py` lines 43-45. -/
def markerFinish : List Char := "Finish: Solving (isotropic) linearized Eliashberg".data

/-- Greedy `class+` matcher: the maximal non-empty run of characters of
the class at the head of the input, with the remainder.  Because every
two adjacent atoms of the row pattern have disjoint character classes,
the backtracking regex engine and this maximal-munch matcher agree. -/
def munch1 (p : Char → Bool) (l : List Char) : Option (List Char × List Char) :=
  let t := l.takeWhile p
  if t = [] then none else some (t, l.dropWhile p)

/-- One attempted match of the row pattern
`\s+([\d\.]+)\s+([\d\.-]+)\s+\d+\s+[\d\.]+\s+\d+\n`
(`parsers.py` line 42) at the head of the input; on success returns the
two capture groups and the input remaining after the match. -/
def matchRow (l : List Char) : Option ((List Char × List Char) × List Char) :=
  match munch1 isPySpace l with
  | none => none
  | some (_, r1) =>
  match munch1 isDigitDot r1 with
  | none => none
  | some (g1, r2) =>
  match munch1 isPySpace r2 with
  | none => none
  | some (_, r3) =>
  match munch1 isDigitDotDash r3 with
  | none => none
  | some (g2, r4) =>
  match munch1 isPySpace r4 with
  | none => none
  | some (_, r5) =>
  match munch1 Char.isDigit r5 with
  | none => none
  | some (_, r6) =>
  match munch1 isPySpace r6 with
  | none => none
  | some (_, r7) =>
  match munch1 isDigitDot r7 with
  | none => none
  | some (_, r8) =>
  match munch1 isPySpace r8 with
  | none => none
  | some (_, r9) =>
  match munch1 Char.isDigit r9 with
  | none => none
  | some (_, r10) =>
  match r10 with
  | '\n' :: r11 => some ((g1, g2), r11)
  | _ => none

/-- `re.findall` of the row pattern: leftmost non-overlapping matches,
resuming after each match; the fuel (an upper bound on the scan length)
makes the recursion structural. -/
def findRows : Nat → List Char → List (List Char × List Char)
  | 0, _ => []
  | _, [] => []
  | fuel + 1, c :: rest =>
    match matchRow (c :: rest) with
    | some (gs, remainder) => gs :: findRows fuel remainder
    | none => findRows fuel rest

/-- Float conversion of one matched row,
`numpy.array(..., dtype=float)` on a `(group1, group2)` string pair. -/
def rowToFloats (g : List Char × List Char) : Option (ℚ × ℚ) :=
  (pyFloat? g.1).bind fun a => (pyFloat? g.2).map fun b => (a, b)

/-- Embedding of `parse_epw_max_eigenvalue` (`parsers.py` lines 39-50):
scan the text before the first marker occurrence for row matches and
convert each row's two capture groups to floats.  The returned list is
the single `"max_eigenvalue"` entry of the result dictionary. -/
def parse_epw_max_eigenvalue (s : List Char) : Option (List (ℚ × ℚ)) :=
  optMapM rowToFloats (findRows (beforeSeq markerFinish s).length (beforeSeq markerFinish s))

/-- Numeric value of one digit character. -/
def digitVal (c : Char) : ℕ := c.toNat - 48

/-- Filename match of `^PREFIX\.imag_iso_(\d{3}\.\d{2})$` (`parsers.py`
line 63) with the prefix taken literally (as in the `aiida` default used
by the code), returning `float(group(1))` on success. -/
def imagIsoTemp? (pre filename : List Char) : Option ℚ :=
  if leadsWith pre filename then
    match List.drop pre.length filename with
    | rest =>
      if leadsWith ".imag_iso_".data rest then
        match List.drop 10 rest with
        | [a, b, c, dot, d, e] =>
          if a.isDigit ∧ b.isDigit ∧ c.isDigit ∧ dot = '.' ∧ d.isDigit ∧ e.isDigit then
            some (mkRat ((100 * digitVal a + 10 * digitVal b + digitVal c) * 100 +
              10 * digitVal d + digitVal e) 100)
          else none
        | _ => none
      else none
  else none

/-- Embedding of
`numpy.loadtxt(io.StringIO(content), dtype=float, comments="#", skiprows=1)`
(`parsers.py` lines 69-71): drop the first line, truncate each remaining
line at `#`, skip blank lines, split the rest into float rows; a
non-float token or inconsistent row lengths raise (`none`); zero data
rows yield an empty array without raising. -/
def loadtxtSkip1 (content : List Char) : Option (List (List ℚ)) :=
  let dataLines := ((splitOnChar '\n' content).drop 1).map
    (fun l => l.takeWhile (fun c => c ≠ '#'))
  let wordRows := (dataLines.map pyWords).filter (fun ws => ws ≠ [])
  (optMapM (optMapM pyFloat?) wordRows).bind fun rows =>
    if rows.all (fun r => r.length = (rows.headD []).length) then some rows else none

/-- Embedding of `parse_epw_imag_iso` (`parsers.py` lines 53-73).  The
`file_contents` dictionary is an insertion-ordered association list; the
result maps each matched temperature to the loaded gap-function table,
in the same order.  A filename that does not match the pattern is
skipped without being read. -/
def parse_epw_imag_iso : List (List Char × List Char) → List Char →
    Option (List (ℚ × List (List ℚ)))
  | [], _ => some []
  | (fn, body) :: rest, pre =>
    (imagIsoTemp? pre fn).elim (parse_epw_imag_iso rest pre) fun T =>
      (loadtxtSkip1 body).bind fun g =>
        (parse_epw_imag_iso rest pre).map fun acc => (T, g) :: acc

/-! ### Helper lemmas -/

theorem foldl_max_init_le (l : List ℝ) : ∀ a : ℝ, a ≤ l.foldl max a := by
  induction l with
  | nil => intro a; simp
  | cons x xs ih =>
    intro a
    calc a ≤ max a x := le_max_left a x
    _ ≤ xs.foldl max (max a x) := ih (max a x)

theorem mem_le_foldl_max (l : List ℝ) : ∀ (a y : ℝ), y ∈ l → y ≤ l.foldl max a := by
  induction l with
  | nil => intro a y hy; simp at hy
  | cons x xs ih =>
    intro a y hy
    rcases List.mem_cons.mp hy with h | h
    · subst h
      calc y ≤ max a y := le_max_right a y
      _ ≤ xs.foldl max (max a y) := foldl_max_init_le xs (max a y)
    · exact ih (max a x) y h

theorem foldl_max_mem (l : List ℝ) : ∀ a : ℝ, l.foldl max a = a ∨ l.foldl max a ∈ l := by
  induction l with
  | nil => intro a; left; rfl
  | cons x xs ih =>
    intro a
    rcases ih (max a x) with h | h
    · rcases max_choice a x with hc | hc
      · left; simpa [hc] using h
      · right; rw [List.foldl_cons, h, hc]; exact List.mem_cons_self x xs
    · right; exact List.mem_cons_of_mem x h

theorem le_npMax (l : List ℝ) (y : ℝ) (hy : y ∈ l) : y ≤ npMax l := by
  cases l with
  | nil => simp at hy
  | cons x xs =>
    simp only [npMax]
    rcases List.mem_cons.mp hy with h | h
    · subst h; exact foldl_max_init_le xs y
    · exact mem_le_foldl_max xs x y h

theorem npMax_mem (l : List ℝ) (h : l ≠ []) : npMax l ∈ l := by
  cases l with
  | nil => exact absurd rfl h
  | cons x xs =>
    simp only [npMax]
    rcases foldl_max_mem xs x with hc | hc
    · rw [hc]; exact List.mem_cons_self x xs
    · exact List.mem_cons_of_mem x hc

theorem foldl_min_le_init (l : List ℝ) : ∀ a : ℝ, l.foldl min a ≤ a := by
  induction l with
  | nil => intro a; simp
  | cons x xs ih =>
    intro a
    calc xs.foldl min (min a x) ≤ min a x := ih (min a x)
    _ ≤ a := min_le_left a x

theorem foldl_min_le_mem (l : List ℝ) : ∀ (a y : ℝ), y ∈ l → l.foldl min a ≤ y := by
  induction l with
  | nil => intro a y hy; simp at hy
  | cons x xs ih =>
    intro a y hy
    rcases List.mem_cons.mp hy with h | h
    · subst h
      calc xs.foldl min (min a y) ≤ min a y := foldl_min_le_init xs (min a y)
      _ ≤ y := min_le_right a y
    · exact ih (min a x) y h

theorem foldl_min_mem (l : List ℝ) : ∀ a : ℝ, l.foldl min a = a ∨ l.foldl min a ∈ l := by
  induction l with
  | nil => intro a; left; rfl
  | cons x xs ih =>
    intro a
    rcases ih (min a x) with h | h
    · rcases min_choice a x with hc | hc
      · left; simpa [hc] using h
      · right; rw [List.foldl_cons, h, hc]; exact List.mem_cons_self x xs
    · right; exact List.mem_cons_of_mem x h

theorem npMin_le (l : List ℝ) (y : ℝ) (hy : y ∈ l) : npMin l ≤ y := by
  cases l with
  | nil => simp at hy
  | cons x xs =>
    simp only [npMin]
    rcases List.mem_cons.mp hy with h | h
    · subst h; exact foldl_min_le_init xs y
    · exact foldl_min_le_mem xs x y h

theorem npMin_mem (l : List ℝ) (h : l ≠ []) : npMin l ∈ l := by
  cases l with
  | nil => exact absurd rfl h
  | cons x xs =>
    simp only [npMin]
    rcases foldl_min_mem xs x with hc | hc
    · rw [hc]; exact List.mem_cons_self x xs
    · exact List.mem_cons_of_mem x hc

theorem npMin_le_npMax (l : List ℝ) (h : l ≠ []) : npMin l ≤ npMax l :=
  npMin_le l (npMax l) (npMax_mem l h)

theorem sortByEv_perm (l : List (ℝ × ℝ)) : List.Perm (sortByEv l) l :=
  List.perm_insertionSort leFst l

theorem sortByEv_sorted (l : List (ℝ × ℝ)) : List.Sorted leFst (sortByEv l) :=
  List.sorted_insertionSort leFst l

theorem sorted_head_le_fst (p : ℝ × ℝ) (ps : List (ℝ × ℝ))
    (hs : List.Sorted leFst (p :: ps)) (q : ℝ × ℝ) (hq : q ∈ p :: ps) : p.1 ≤ q.1 := by
  rcases List.mem_cons.mp hq with h | h
  · subst h; exact le_refl _
  · exact (List.sorted_cons.mp hs).1 q h

/-- Where `numpy.interp` lands for an in-range query over sorted data:
there is a segment `a`-`b` of the data (adjacent points, or the final
point doubled) that brackets the query, and the result is the linear
interpolation formula on that segment. -/
theorem npInterp_segment (t : ℝ) :
    ∀ ps : List (ℝ × ℝ), List.Sorted leFst ps → ps ≠ [] →
    (ps.headD (0, 0)).1 ≤ t → (∃ q ∈ ps, t ≤ q.1) →
    ∃ a b, AdjOrEnd ps a b ∧ a.1 ≤ t ∧ t ≤ b.1 ∧
      npInterp t ps = a.2 + (b.2 - a.2) * (t - a.1) / (b.1 - a.1) := by
  intro ps
  induction ps with
  | nil => intro _ h; exact absurd rfl h
  | cons p rest ih =>
    intro hs _ hhead hup
    obtain ⟨px, py⟩ := p
    simp only [List.headD_cons] at hhead
    cases rest with
    | nil =>
      obtain ⟨q, hq, hqt⟩ := hup
      have hq' : q = (px, py) := by simpa using hq
      subst hq'
      refine ⟨(px, py), (px, py), Or.inr ⟨rfl, rfl⟩, hhead, hqt, ?_⟩
      simp [npInterp]
    | cons p1 rest2 =>
      obtain ⟨qx, qy⟩ := p1
      by_cases hlt : t < qx
      · refine ⟨(px, py), (qx, qy), Or.inl ⟨0, by simp, by simp⟩, hhead, le_of_lt hlt, ?_⟩
        simp [npInterp, hlt]
      · have hp1t : qx ≤ t := le_of_not_lt hlt
        have hs' : List.Sorted leFst ((qx, qy) :: rest2) := (List.sorted_cons.mp hs).2
        have hup' : ∃ q ∈ (qx, qy) :: rest2, t ≤ q.1 := by
          obtain ⟨q, hq, hqt⟩ := hup
          rcases List.mem_cons.mp hq with h | h
          · subst h
            refine ⟨(qx, qy), List.mem_cons_self _ _, ?_⟩
            refine le_trans hqt (sorted_head_le_fst (px, py) ((qx, qy) :: rest2) hs (qx, qy) ?_)
            exact List.mem_cons_of_mem _ (List.mem_cons_self _ _)
          · exact ⟨q, h, hqt⟩
        obtain ⟨a, b, hadj, h1, h2, heq2⟩ :=
          ih hs' (by simp) (by simpa using hp1t) hup'
        refine ⟨a, b, ?_, h1, h2, ?_⟩
        · rcases hadj with ⟨n, hn1, hn2⟩ | ⟨hab, hlast⟩
          · exact Or.inl ⟨n + 1, by simpa using hn1, by simpa using hn2⟩
          · exact Or.inr ⟨hab, by rwa [List.getLast?_cons_cons]⟩
        · rw [← heq2]
          simp [npInterp, hlt]

/-! ### Claim theorems -/

/-- C1 counterexample: at `λ = 1`, `μ* = 50/81` the guard denominator
`λ - μ*(1 + 0.62 λ)` is exactly zero, so `λ ≤ μ*(1 + 0.62 λ)` holds, yet
`allen_dynes` does not return `0`: the `else` branch divides by zero
(`ZeroDivisionError`, modelled by `none`). -/
theorem allen_dynes_boundary_counterexample :
    (1 : ℝ) ≤ (50 / 81) * (1 + 0.62 * 1) ∧
    allen_dynes 1 1.2 (50 / 81) ≠ some 0 := by
  constructor
  · norm_num
  · rw [allen_dynes, if_neg (by norm_num), if_pos (by norm_num)]
    simp

/-- C1 (amended): for every `λ`, `μ*` and every `ω_log > 0`,
`allen_dynes` returns `0` when `λ - μ*(1+0.62λ) < 0` strictly, raises a
division-by-zero error when the denominator is exactly zero, and
otherwise returns the strictly positive value
`ω_log · exp(-1.04(1+λ)/(λ - μ*(1+0.62λ))) / 1.2`. -/
theorem allen_dynes_guard_cases (lambo omega_log mu_star : ℝ)
    (homega : 0 < omega_log) :
    (lambo - mu_star * (1 + 0.62 * lambo) < 0 →
      allen_dynes lambo omega_log mu_star = some 0) ∧
    (lambo - mu_star * (1 + 0.62 * lambo) = 0 →
      allen_dynes lambo omega_log mu_star = none) ∧
    (0 < lambo - mu_star * (1 + 0.62 * lambo) →
      allen_dynes lambo omega_log mu_star =
        some (omega_log *
          Real.exp (-1.04 * (1 + lambo) / (lambo - mu_star * (1 + 0.62 * lambo))) / 1.2) ∧
      0 < omega_log *
          Real.exp (-1.04 * (1 + lambo) / (lambo - mu_star * (1 + 0.62 * lambo))) / 1.2) := by
  refine ⟨fun h => ?_, fun h => ?_, fun h => ⟨?_, ?_⟩⟩
  · rw [allen_dynes, if_pos h]
  · rw [allen_dynes, if_neg (by rw [h]; exact lt_irrefl 0), if_pos h]
  · rw [allen_dynes, if_neg (not_lt.mpr (le_of_lt h)), if_neg (ne_of_gt h)]
  · positivity

/-- C1 witness: the amended theorem applied at `λ = 1`, `ω_log = 1`,
`μ* = 0`. -/
theorem allen_dynes_guard_cases_witness :
    ((1 : ℝ) - 0 * (1 + 0.62 * 1) < 0 → allen_dynes 1 1 0 = some 0) ∧
    ((1 : ℝ) - 0 * (1 + 0.62 * 1) = 0 → allen_dynes 1 1 0 = none) ∧
    (0 < (1 : ℝ) - 0 * (1 + 0.62 * 1) →
      allen_dynes 1 1 0 =
        some (1 * Real.exp (-1.04 * (1 + 1) / ((1 : ℝ) - 0 * (1 + 0.62 * 1))) / 1.2) ∧
      0 < 1 * Real.exp (-1.04 * (1 + 1) / ((1 : ℝ) - 0 * (1 + 0.62 * 1))) / 1.2) :=
  allen_dynes_guard_cases 1 1 0 (by norm_num)

/-- C3: for every non-empty `(temperature, eigenvalue)` table whose
eigenvalue column stays strictly below `1.0`, `_calculate_iso_tc`
returns exactly `0.0`, whatever `allow_extrapolation` is. -/
theorem calc_iso_tc_zero_when_max_below_one (me : List (ℝ × ℝ)) (b : Bool)
    (hne : me ≠ []) (hmax : npMax (me.map Prod.snd) < 1) :
    _calculate_iso_tc me b = some (.tc 0) := by
  cases me with
  | nil => exact absurd rfl hne
  | cons r rs =>
    simp only [_calculate_iso_tc]
    rw [if_pos hmax]

/-- C3 witness: the single-row table `[(5, 0.5)]`. -/
theorem calc_iso_tc_zero_when_max_below_one_witness :
    _calculate_iso_tc [((5 : ℝ), 0.5)] true = some (.tc 0) :=
  calc_iso_tc_zero_when_max_below_one [((5 : ℝ), 0.5)] true (by simp)
    (by simp [npMax]; norm_num)

theorem exists_mem_sorted_fst (me : List (ℝ × ℝ)) (v : ℝ)
    (hv : v ∈ me.map Prod.snd) :
    ∃ q ∈ sortByEv (me.map Prod.swap), q.1 = v := by
  obtain ⟨r, hr, hrv⟩ := List.mem_map.mp hv
  refine ⟨Prod.swap r, ?_, by simp [Prod.swap, hrv]⟩
  exact (sortByEv_perm (me.map Prod.swap)).mem_iff.mpr (List.mem_map_of_mem Prod.swap hr)

theorem sortByEv_ne_nil (l : List (ℝ × ℝ)) (h : l ≠ []) : sortByEv l ≠ [] := by
  intro hc
  have := (sortByEv_perm l).length_eq
  rw [hc] at this
  exact h (List.eq_nil_of_length_eq_zero this.symm)

/-- C4: the literal table `[(1, 0.8), (2, 1.2)]` gives exactly `1.5`,
and in general whenever the eigenvalue column brackets `1.0` the result
is the linear-interpolation formula evaluated at eigenvalue `1.0` on the
segment of the eigenvalue-sorted data that brackets `1.0`. -/
theorem calc_iso_tc_bracket_interpolation :
    (_calculate_iso_tc [((1 : ℝ), 0.8), (2, 1.2)] false = some (.tc 1.5)) ∧
    (∀ me : List (ℝ × ℝ), me ≠ [] →
      npMin (me.map Prod.snd) ≤ 1 → 1 ≤ npMax (me.map Prod.snd) →
      ∃ a b, AdjOrEnd (sortByEv (me.map Prod.swap)) a b ∧ a.1 ≤ 1 ∧ 1 ≤ b.1 ∧
        _calculate_iso_tc me false =
          some (.tc (a.2 + (b.2 - a.2) * (1 - a.1) / (b.1 - a.1)))) := by
  constructor
  · norm_num [_calculate_iso_tc, npMax, npMin, max_def, min_def, sortByEv,
      List.insertionSort, List.orderedInsert, leFst, npInterp]
  · intro me hne hmin hmax
    cases me with
    | nil => exact absurd rfl hne
    | cons r rs =>
      have hmapne : (r :: rs).map Prod.snd ≠ [] := by simp
      have hcond1 : ¬ npMax ((r :: rs).map Prod.snd) < 1 := not_lt.mpr hmax
      have hcond2 : ¬ 1 < npMin ((r :: rs).map Prod.snd) := not_lt.mpr hmin
      have hsne : sortByEv ((r :: rs).map Prod.swap) ≠ [] :=
        sortByEv_ne_nil _ (by simp)
      obtain ⟨qmin, hqmin, hqminv⟩ :=
        exists_mem_sorted_fst (r :: rs) _ (npMin_mem _ hmapne)
      obtain ⟨qmax, hqmax, hqmaxv⟩ :=
        exists_mem_sorted_fst (r :: rs) _ (npMax_mem _ hmapne)
      have hup : ∃ q ∈ sortByEv ((r :: rs).map Prod.swap), (1 : ℝ) ≤ q.1 :=
        ⟨qmax, hqmax, by rw [hqmaxv]; exact hmax⟩
      have hhead : ((sortByEv ((r :: rs).map Prod.swap)).headD (0, 0)).1 ≤ 1 := by
        cases hs0 : sortByEv ((r :: rs).map Prod.swap) with
        | nil => exact absurd hs0 hsne
        | cons h0 hs2 =>
          have hsorted := sortByEv_sorted ((r :: rs).map Prod.swap)
          rw [hs0] at hsorted
          have : h0.1 ≤ qmin.1 :=
            sorted_head_le_fst h0 hs2 hsorted qmin (hs0 ▸ hqmin)
          simpa using le_trans this (hqminv ▸ hmin)
      obtain ⟨a, b, hadj, h1, h2, heq⟩ :=
        npInterp_segment 1 (sortByEv ((r :: rs).map Prod.swap))
          (sortByEv_sorted _) hsne hhead hup
      refine ⟨a, b, hadj, h1, h2, ?_⟩
      simp only [_calculate_iso_tc]
      rw [if_neg hcond1, if_neg hcond2, heq]

/-- C4 witness: the general bracketing statement applied to the literal
table `[(1, 0.8), (2, 1.2)]`. -/
theorem calc_iso_tc_bracket_interpolation_witness :
    ∃ a b, AdjOrEnd (sortByEv ([((1 : ℝ), 0.8), (2, 1.2)].map Prod.swap)) a b ∧
      a.1 ≤ 1 ∧ 1 ≤ b.1 ∧
      _calculate_iso_tc [((1 : ℝ), 0.8), (2, 1.2)] false =
        some (.tc (a.2 + (b.2 - a.2) * (1 - a.1) / (b.1 - a.1))) :=
  calc_iso_tc_bracket_interpolation.2 [((1 : ℝ), 0.8), (2, 1.2)] (by simp)
    (by simp [npMin, min_def]; norm_num)
    (by simp [npMax, max_def]; norm_num)

/-- C5 counterexample: with `allow_extrapolation = True`,
a single-row table whose eigenvalue exceeds `1.0` yields `nan`
(scipy's slope is `0/0`), not a linear extrapolation value, and on a
three-row table the result (`40`) is the line through the two rows of
smallest eigenvalue, which differs from the line through the two
boundary rows of the table (`34`). -/
theorem calc_iso_tc_extrapolation_counterexample :
    (_calculate_iso_tc [((5 : ℝ), 1.5)] true = some .nan) ∧
    (_calculate_iso_tc [((30 : ℝ), 1.5), (20, 2), (10, 4)] true = some (.tc 40)) ∧
    ((40 : ℝ) ≠ 30 + (10 - 30) * (1 - 1.5) / (4 - 1.5)) := by
  refine ⟨?_, ?_, by norm_num⟩
  · norm_num [_calculate_iso_tc, npMax, npMin, max_def, min_def, sortByEv,
      List.insertionSort, List.orderedInsert, leFst, extrapolateAtOne]
  · norm_num [_calculate_iso_tc, npMax, npMin, max_def, min_def, sortByEv,
      List.insertionSort, List.orderedInsert, leFst, extrapolateAtOne]

/-- C5 (amended): on a non-empty table whose eigenvalues all exceed
`1.0`, the function never raises: without extrapolation it returns NaN;
with extrapolation it returns the line through the two points of
smallest eigenvalue (the boundary segment of the eigenvalue-sorted data
adjacent to the query) evaluated at eigenvalue `1.0` when the table has
at least two rows, and NaN when it has exactly one row. -/
theorem calc_iso_tc_min_above_one (me : List (ℝ × ℝ)) (hne : me ≠ [])
    (hmin : 1 < npMin (me.map Prod.snd)) :
    (_calculate_iso_tc me false = some .nan) ∧
    (∀ p0 p1 rest2, sortByEv (me.map Prod.swap) = p0 :: p1 :: rest2 →
      _calculate_iso_tc me true =
        some (.tc (p0.2 + (p1.2 - p0.2) * (1 - p0.1) / (p1.1 - p0.1)))) ∧
    (∀ p, sortByEv (me.map Prod.swap) = [p] → _calculate_iso_tc me true = some .nan) := by
  cases me with
  | nil => exact absurd rfl hne
  | cons r rs =>
    have hmapne : (r :: rs).map Prod.snd ≠ [] := by simp
    have hcond1 : ¬ npMax ((r :: rs).map Prod.snd) < 1 :=
      not_lt.mpr (le_trans (le_of_lt hmin) (npMin_le_npMax _ hmapne))
    refine ⟨?_, ?_, ?_⟩
    · simp only [_calculate_iso_tc]
      rw [if_neg hcond1, if_pos hmin]
      rfl
    · intro p0 p1 rest2 hsort
      obtain ⟨p0x, p0y⟩ := p0
      obtain ⟨p1x, p1y⟩ := p1
      simp only [_calculate_iso_tc]
      rw [if_neg hcond1, if_pos hmin, if_pos trivial, hsort]
      simp [extrapolateAtOne]
    · intro p hsort
      obtain ⟨p0x, p0y⟩ := p
      simp only [_calculate_iso_tc]
      rw [if_neg hcond1, if_pos hmin, if_pos trivial, hsort]
      simp [extrapolateAtOne]

/-- C5 witness: the amended statement applied to the two-row table
`[(30, 1.5), (20, 2)]`. -/
theorem calc_iso_tc_min_above_one_witness :
    (_calculate_iso_tc [((30 : ℝ), 1.5), (20, 2)] false = some .nan) ∧
    (∀ p0 p1 rest2,
      sortByEv ([((30 : ℝ), 1.5), (20, 2)].map Prod.swap) = p0 :: p1 :: rest2 →
      _calculate_iso_tc [((30 : ℝ), 1.5), (20, 2)] true =
        some (.tc (p0.2 + (p1.2 - p0.2) * (1 - p0.1) / (p1.1 - p0.1)))) ∧
    (∀ p, sortByEv ([((30 : ℝ), 1.5), (20, 2)].map Prod.swap) = [p] →
      _calculate_iso_tc [((30 : ℝ), 1.5), (20, 2)] true = some .nan) :=
  calc_iso_tc_min_above_one [((30 : ℝ), 1.5), (20, 2)] (by simp)
    (by simp [npMin, min_def]; norm_num)

/-- C6: the orchestration-layer variant `calculate_tc` returns the
hardcoded fallback `40.0` whenever the eigenvalue table is empty or does
not bracket `1.0` (the interpolation call raises `ValueError`), and on a
bracketing table it returns exactly the inverse-linear-interpolated
temperature computed by `_calculate_iso_tc`. -/
theorem calculate_tc_fallback_spec (me : List (ℝ × ℝ)) :
    ((me = [] ∨ 1 < npMin (me.map Prod.snd) ∨ npMax (me.map Prod.snd) < 1) →
      calculate_tc me = 40) ∧
    (me ≠ [] → npMin (me.map Prod.snd) ≤ 1 → 1 ≤ npMax (me.map Prod.snd) →
      _calculate_iso_tc me false = some (.tc (calculate_tc me))) := by
  cases me with
  | nil =>
    refine ⟨fun _ => rfl, fun h => absurd rfl h⟩
  | cons r rs =>
    constructor
    · intro h
      rcases h with h | h
      · exact absurd h (by simp)
      · simp only [calculate_tc]
        rw [if_pos h]
    · intro _ hmin hmax
      have hcond1 : ¬ npMax ((r :: rs).map Prod.snd) < 1 := not_lt.mpr hmax
      have hcond2 : ¬ 1 < npMin ((r :: rs).map Prod.snd) := not_lt.mpr hmin
      simp only [_calculate_iso_tc, calculate_tc]
      rw [if_neg hcond1, if_neg hcond2, if_neg (by push_neg; exact ⟨hmin, hmax⟩)]

theorem trapezoid_eq_ref : ∀ y x : List ℝ, y.length = x.length →
    trapezoid y x = trapezoidRef y x
  | [], [], _ => by simp [trapezoid, trapezoidRef]
  | [], _ :: _, h => by simp at h
  | _ :: _, [], h => by simp at h
  | [_], [_], _ => by simp [trapezoid, trapezoidRef]
  | [_], _ :: _ :: xs, h => by simp at h
  | _ :: _ :: _, [_], h => by simp at h
  | y0 :: y1 :: ys, x0 :: x1 :: xs, h => by
      have ih := trapezoid_eq_ref (y1 :: ys) (x1 :: xs) (by simpa using h)
      simp only [trapezoid, trapezoidRef, List.length_cons, Nat.add_sub_cancel] at ih ⊢
      rw [Finset.sum_range_succ']
      simp only [List.getD_cons_succ, List.getD_cons_zero] at ih ⊢
      rw [ih]
      ring

theorem getD_zipWith (f : ℝ → ℝ → ℝ) :
    ∀ (a b : List ℝ) (i : ℕ), i < a.length → i < b.length →
    (List.zipWith f a b).getD i 0 = f (a.getD i 0) (b.getD i 0)
  | [], _, _, ha, _ => by simp at ha
  | _ :: _, [], _, _, hb => by simp at hb
  | x :: xs, y :: ys, 0, _, _ => by simp
  | x :: xs, y :: ys, i + 1, ha, hb => by
      simp only [List.zipWith_cons_cons, List.getD_cons_succ]
      exact getD_zipWith f xs ys i (by simpa using ha) (by simpa using hb)

/-- C2: for a frequency array of strictly positive entries and a
spectrum array of the same length, `calculate_lambda_omega` returns
exactly the pair given by the spec's trapezoidal formulas
`λ = 2 ∫ (a2F/ω) dω` and
`ω_log = exp((2/λ) ∫ (a2F/ω) ln ω dω) · 11.604518121550082`. -/
theorem calculate_lambda_omega_spec (frequency spectrum : List ℝ)
    (hlen : spectrum.length = frequency.length)
    (hpos : ∀ x ∈ frequency, 0 < x) :
    calculate_lambda_omega frequency spectrum =
      (lambdaRef frequency spectrum, omegaLogRef frequency spectrum) := by
  have key1 : trapezoid (List.zipWith (fun s f => s / f) spectrum frequency) frequency
      = ∑ i in Finset.range (frequency.length - 1),
        (frequency.getD (i + 1) 0 - frequency.getD i 0) *
          (spectrum.getD i 0 / frequency.getD i 0 +
           spectrum.getD (i + 1) 0 / frequency.getD (i + 1) 0) / 2 := by
    rw [trapezoid_eq_ref _ _ (by simp [hlen])]
    refine Finset.sum_congr rfl ?_
    intro i hi
    have hi' : i < frequency.length - 1 := Finset.mem_range.mp hi
    rw [getD_zipWith _ _ _ i (by omega) (by omega),
        getD_zipWith _ _ _ (i + 1) (by omega) (by omega)]
  have key2 : trapezoid
        (List.zipWith (fun s f => s / f * Real.log f) spectrum frequency) frequency
      = ∑ i in Finset.range (frequency.length - 1),
        (frequency.getD (i + 1) 0 - frequency.getD i 0) *
          (spectrum.getD i 0 / frequency.getD i 0 * Real.log (frequency.getD i 0) +
           spectrum.getD (i + 1) 0 / frequency.getD (i + 1) 0 *
             Real.log (frequency.getD (i + 1) 0)) / 2 := by
    rw [trapezoid_eq_ref _ _ (by simp [hlen])]
    refine Finset.sum_congr rfl ?_
    intro i hi
    have hi' : i < frequency.length - 1 := Finset.mem_range.mp hi
    rw [getD_zipWith _ _ _ i (by omega) (by omega),
        getD_zipWith _ _ _ (i + 1) (by omega) (by omega)]
  simp only [calculate_lambda_omega]
  rw [key1, key2]
  simp only [lambdaRef, omegaLogRef, trapezoidRef]

/-- C2 witness: the spec's trapezoidal scenario, frequency `[1, 2, 3]`
and spectrum `[0.1, 0.2, 0.1]`. -/
theorem calculate_lambda_omega_spec_witness :
    calculate_lambda_omega [(1 : ℝ), 2, 3] [0.1, 0.2, 0.1] =
      (lambdaRef [(1 : ℝ), 2, 3] [0.1, 0.2, 0.1],
       omegaLogRef [(1 : ℝ), 2, 3] [0.1, 0.2, 0.1]) :=
  calculate_lambda_omega_spec [(1 : ℝ), 2, 3] [0.1, 0.2, 0.1] (by simp)
    (by intro x hx; simp at hx; rcases hx with rfl | rfl | rfl <;> norm_num)

/-- C6 witness: the bracketing case applied to `[(1, 0.8), (2, 1.2)]`. -/
theorem calculate_tc_fallback_spec_witness :
    _calculate_iso_tc [((1 : ℝ), 0.8), (2, 1.2)] false =
      some (.tc (calculate_tc [((1 : ℝ), 0.8), (2, 1.2)])) :=
  (calculate_tc_fallback_spec [((1 : ℝ), 0.8), (2, 1.2)]).2 (by simp)
    (by simp [npMin, min_def]; norm_num)
    (by simp [npMax, max_def]; norm_num)

theorem a2fTable_shape (p : List Char) (freq : List ℚ) (rows : List (List ℚ))
    (h : a2fTable p = some (freq, rows)) :
    freq.length = rows.length ∧ ∃ w, 0 < w ∧ ∀ row ∈ rows, row.length + 1 = w := by
  rw [a2fTable] at h
  cases hm : optMapM (fun line => optMapM pyFloat? (pyWords line)) (splitOnChar '\n' p) with
  | none => rw [hm] at h; simp at h
  | some tokRows =>
    rw [hm] at h
    simp only [Option.some_bind] at h
    by_cases hg : 0 < (tokRows.headD []).length ∧
        tokRows.all (fun r => r.length = (tokRows.headD []).length) = true
    · rw [if_pos hg] at h
      simp only [Option.some.injEq, Prod.mk.injEq] at h
      obtain ⟨hf, ha⟩ := h
      subst hf; subst ha
      refine ⟨by simp, (tokRows.headD []).length, hg.1, ?_⟩
      intro row hrow
      obtain ⟨tok, htok, htail⟩ := List.mem_map.mp hrow
      subst htail
      have hlen : tok.length = (tokRows.headD []).length :=
        of_decide_eq_true (List.all_eq_true.mp hg.2 tok htok)
      rw [List.length_tail, hlen]
      have : 0 < tok.length := hlen ▸ hg.1
      omega
    · rw [if_neg hg] at h; simp at h

/-- C7 counterexample: a text on which `parse_epw_a2f` succeeds although
the lambda footer line holds 3 values while the table has 1 a2F column
and the smearing footer line holds 1 value, refuting
`lambda.length == phonon_smearing.length == a2f.columns`. -/
theorem parse_epw_a2f_lengths_counterexample :
    (parse_epw_a2f ("1.0 2.0\n Integrated el-ph coupling\n0.5 0.6 0.7\n#\n0.3".data)).map
        (fun r => (r.lambda_.length, r.phonon_smearing.length, (r.a2f.headD []).length))
      = some (3, 1, 1) ∧ (3 : ℕ) ≠ 1 := by
  constructor
  · decide
  · decide

/-- C7 (amended): on every text on which `parse_epw_a2f` succeeds,
`frequency.length == a2f.rows` holds and all a2F rows share one positive
full-table width; the footer-derived `lambda` and `phonon_smearing`
lengths are, however, not constrained to equal the a2F column count. -/
theorem parse_epw_a2f_shape (s : List Char) (r : A2FData)
    (h : parse_epw_a2f s = some r) :
    r.frequency.length = r.a2f.length ∧
    ∃ w, 0 < w ∧ ∀ row ∈ r.a2f, row.length + 1 = w := by
  rw [parse_epw_a2f] at h
  cases h1 : a2fSplit s with
  | none => rw [h1] at h; simp at h
  | some pr =>
    rw [h1] at h
    simp only [Option.some_bind] at h
    cases h2 : a2fTable pr.1 with
    | none => rw [h2] at h; simp at h
    | some ta =>
      rw [h2] at h
      simp only [Option.some_bind] at h
      cases h3 : a2fFooterData (splitOnChar '\n' pr.2) with
      | none => rw [h3] at h; simp at h
      | some fo =>
        rw [h3] at h
        simp only [Option.some_bind] at h
        cases h4 : scanScalars (splitOnChar '\n' pr.2) (none, none, none) with
        | none => rw [h4] at h; simp at h
        | some st =>
          rw [h4] at h
          simp only [Option.map_some', Option.some.injEq] at h
          subst h
          obtain ⟨freq, a2f⟩ := ta
          exact a2fTable_shape pr.1 freq a2f h2

/-- C7 witness: the shape statement applied to a concrete parsable
`.a2f` text. -/
theorem parse_epw_a2f_shape_witness :
    ([(1 : ℚ)].length = [[(2 : ℚ)]].length) ∧
    ∃ w, 0 < w ∧ ∀ row ∈ [[(2 : ℚ)]], row.length + 1 = w :=
  parse_epw_a2f_shape ("1.0 2.0\n Integrated el-ph coupling\n0.5\n#\n0.3".data)
    ⟨[1], [[2]], [mkRat 1 2], [mkRat 3 10], none, none, none⟩ (by decide)

theorem updScalar_cases (key line : List Char) (cur out : Option ℚ)
    (h : updScalar key line cur = some out) :
    (containsSeq key line = true → out.isSome = true) ∧
    (containsSeq key line = false → out = cur) := by
  constructor
  · intro hc
    rw [updScalar, if_pos hc] at h
    cases hl : (pyWords line).getLast? with
    | none => rw [hl] at h; simp at h
    | some w =>
      rw [hl] at h
      simp only [Option.some_bind] at h
      cases hf : pyFloat? w with
      | none => rw [hf] at h; simp at h
      | some v =>
        rw [hf] at h
        simp only [Option.map_some', Option.some.injEq] at h
        rw [← h]
        rfl
  · intro hc
    rw [updScalar, if_neg (by simp [hc])] at h
    simpa using h.symm

theorem scanScalars_isSome :
    ∀ (lines : List (List Char)) (st res : Option ℚ × Option ℚ × Option ℚ),
    scanScalars lines st = some res →
    ((res.1.isSome = true ↔
        st.1.isSome = true ∨ ∃ l ∈ lines, containsSeq keyElectron l = true) ∧
     (res.2.1.isSome = true ↔
        st.2.1.isSome = true ∨ ∃ l ∈ lines, containsSeq keyFermi l = true) ∧
     (res.2.2.isSome = true ↔
        st.2.2.isSome = true ∨ ∃ l ∈ lines, containsSeq keySummed l = true)) := by
  intro lines
  induction lines with
  | nil =>
    intro st res h
    simp only [scanScalars, Option.some.injEq] at h
    subst h
    simp
  | cons line rest ih =>
    intro st res h
    obtain ⟨e, fw, se⟩ := st
    simp only [scanScalars] at h
    cases h1 : updScalar keyElectron line e with
    | none => rw [h1] at h; simp at h
    | some e' =>
      rw [h1] at h
      simp only [Option.some_bind] at h
      cases h2 : updScalar keyFermi line fw with
      | none => rw [h2] at h; simp at h
      | some fw' =>
        rw [h2] at h
        simp only [Option.some_bind] at h
        cases h3 : updScalar keySummed line se with
        | none => rw [h3] at h; simp at h
        | some se' =>
          rw [h3] at h
          simp only [Option.some_bind] at h
          obtain ⟨ih1, ih2, ih3⟩ := ih (e', fw', se') res h
          obtain ⟨h1a, h1b⟩ := updScalar_cases _ _ _ _ h1
          obtain ⟨h2a, h2b⟩ := updScalar_cases _ _ _ _ h2
          obtain ⟨h3a, h3b⟩ := updScalar_cases _ _ _ _ h3
          refine ⟨?_, ?_, ?_⟩
          · rw [ih1]
            by_cases hc : containsSeq keyElectron line = true
            · simp [hc, h1a hc]
            · rw [h1b (by simpa using hc)]
              simp only [List.mem_cons]
              constructor
              · rintro (hh | ⟨l, hl, hcl⟩)
                · exact Or.inl hh
                · exact Or.inr ⟨l, Or.inr hl, hcl⟩
              · rintro (hh | ⟨l, hl | hl, hcl⟩)
                · exact Or.inl hh
                · subst hl; exact absurd hcl hc
                · exact Or.inr ⟨l, hl, hcl⟩
          · rw [ih2]
            by_cases hc : containsSeq keyFermi line = true
            · simp [hc, h2a hc]
            · rw [h2b (by simpa using hc)]
              simp only [List.mem_cons]
              constructor
              · rintro (hh | ⟨l, hl, hcl⟩)
                · exact Or.inl hh
                · exact Or.inr ⟨l, Or.inr hl, hcl⟩
              · rintro (hh | ⟨l, hl | hl, hcl⟩)
                · exact Or.inl hh
                · subst hl; exact absurd hcl hc
                · exact Or.inr ⟨l, hl, hcl⟩
          · rw [ih3]
            by_cases hc : containsSeq keySummed line = true
            · simp [hc, h3a hc]
            · rw [h3b (by simpa using hc)]
              simp only [List.mem_cons]
              constructor
              · rintro (hh | ⟨l, hl, hcl⟩)
                · exact Or.inl hh
                · exact Or.inr ⟨l, Or.inr hl, hcl⟩
              · rintro (hh | ⟨l, hl | hl, hcl⟩)
                · exact Or.inl hh
                · subst hl; exact absurd hcl hc
                · exact Or.inr ⟨l, hl, hcl⟩

/-- C9 counterexample: a text on which `parse_epw_a2f` succeeds (a
result is returned) although none of the three scalar label lines is
present, so the keys `electron_smearing`, `fermi_window` and
`summed_elph_coupling` are all absent from the result. -/
theorem parse_epw_a2f_keys_counterexample :
    (parse_epw_a2f ("1.0 2.0\n Integrated el-ph coupling\n0.5\n#\n0.3".data)).isSome = true ∧
    (parse_epw_a2f ("1.0 2.0\n Integrated el-ph coupling\n0.5\n#\n0.3".data)).map
        (fun r => (r.electron_smearing, r.fermi_window, r.summed_elph_coupling))
      = some (none, none, none) := by
  constructor
  · decide
  · decide

/-- C9 (amended): on every successful parse the four array keys
(`frequency`, `a2f`, `lambda`, `phonon_smearing`) are present (they are
structural fields of the result), while each of the three scalar keys is
present exactly when its label substring occurs on some footer line. -/
theorem parse_epw_a2f_scalar_keys (s : List Char) (r : A2FData)
    (h : parse_epw_a2f s = some r) :
    (r.electron_smearing.isSome = true ↔
      ∃ l ∈ a2fFooterLines s, containsSeq keyElectron l = true) ∧
    (r.fermi_window.isSome = true ↔
      ∃ l ∈ a2fFooterLines s, containsSeq keyFermi l = true) ∧
    (r.summed_elph_coupling.isSome = true ↔
      ∃ l ∈ a2fFooterLines s, containsSeq keySummed l = true) := by
  rw [parse_epw_a2f] at h
  cases h1 : a2fSplit s with
  | none => rw [h1] at h; simp at h
  | some pr =>
    rw [h1] at h
    simp only [Option.some_bind] at h
    cases h2 : a2fTable pr.1 with
    | none => rw [h2] at h; simp at h
    | some ta =>
      rw [h2] at h
      simp only [Option.some_bind] at h
      cases h3 : a2fFooterData (splitOnChar '\n' pr.2) with
      | none => rw [h3] at h; simp at h
      | some fo =>
        rw [h3] at h
        simp only [Option.some_bind] at h
        cases h4 : scanScalars (splitOnChar '\n' pr.2) (none, none, none) with
        | none => rw [h4] at h; simp at h
        | some st =>
          rw [h4] at h
          simp only [Option.map_some', Option.some.injEq] at h
          subst h
          have hfoot : a2fFooterLines s = splitOnChar '\n' pr.2 := by
            rw [a2fFooterLines, h1]
          obtain ⟨k1, k2, k3⟩ := scanScalars_isSome (splitOnChar '\n' pr.2) _ _ h4
          rw [hfoot]
          simp only [Option.isSome_none, Bool.false_eq_true, false_or] at k1 k2 k3
          exact ⟨k1, k2, k3⟩

set_option maxRecDepth 8000 in
/-- C9 witness: the scalar-key statement applied to a parsable `.a2f`
text whose footer carries all three labels. -/
theorem parse_epw_a2f_scalar_keys_witness :
    ((some (mkRat 1 20)).isSome = true ↔
      ∃ l ∈ a2fFooterLines ("1.0 2.0\n Integrated el-ph coupling\n 0.5\n#\n 0.3\nElectron smearing (eV) 0.05\nFermi window (eV) 0.4\nSummed el-ph coupling 1.25".data),
        containsSeq keyElectron l = true) ∧
    ((some (mkRat 2 5)).isSome = true ↔
      ∃ l ∈ a2fFooterLines ("1.0 2.0\n Integrated el-ph coupling\n 0.5\n#\n 0.3\nElectron smearing (eV) 0.05\nFermi window (eV) 0.4\nSummed el-ph coupling 1.25".data),
        containsSeq keyFermi l = true) ∧
    ((some (mkRat 5 4)).isSome = true ↔
      ∃ l ∈ a2fFooterLines ("1.0 2.0\n Integrated el-ph coupling\n 0.5\n#\n 0.3\nElectron smearing (eV) 0.05\nFermi window (eV) 0.4\nSummed el-ph coupling 1.25".data),
        containsSeq keySummed l = true) :=
  parse_epw_a2f_scalar_keys
    ("1.0 2.0\n Integrated el-ph coupling\n 0.5\n#\n 0.3\nElectron smearing (eV) 0.05\nFermi window (eV) 0.4\nSummed el-ph coupling 1.25".data)
    ⟨[1], [[2]], [mkRat 1 2], [mkRat 3 10], some (mkRat 1 20), some (mkRat 2 5),
      some (mkRat 5 4)⟩ (by decide)

theorem parse_epw_imag_iso_keys_aux :
    ∀ (fc : List (List Char × List Char)) (pre : List Char)
      (res : List (ℚ × List (List ℚ))),
    parse_epw_imag_iso fc pre = some res →
    res.map Prod.fst = fc.filterMap (fun x => imagIsoTemp? pre x.1) := by
  intro fc
  induction fc with
  | nil =>
    intro pre res h
    simp only [parse_epw_imag_iso, Option.some.injEq] at h
    subst h
    simp
  | cons x rest ih =>
    intro pre res h
    obtain ⟨fn, body⟩ := x
    simp only [parse_epw_imag_iso] at h
    cases h1 : imagIsoTemp? pre fn with
    | none =>
      rw [h1] at h
      simp only [Option.elim] at h
      rw [ih pre res h]
      simp [List.filterMap_cons, h1]
    | some T =>
      rw [h1] at h
      simp only [Option.elim] at h
      cases h2 : loadtxtSkip1 body with
      | none => rw [h2] at h; simp at h
      | some g =>
        rw [h2] at h
        simp only [Option.some_bind] at h
        cases h3 : parse_epw_imag_iso rest pre with
        | none => rw [h3] at h; simp at h
        | some acc =>
          rw [h3] at h
          simp only [Option.map_some', Option.some.injEq] at h
          subst h
          simp [List.filterMap_cons, h1, ih pre acc h3]

theorem parse_epw_imag_iso_total :
    ∀ (fc : List (List Char × List Char)) (pre : List Char),
    (∀ x ∈ fc, (imagIsoTemp? pre x.1).isSome = true →
      (loadtxtSkip1 x.2).isSome = true) →
    (parse_epw_imag_iso fc pre).isSome = true := by
  intro fc
  induction fc with
  | nil => intro pre _; simp [parse_epw_imag_iso]
  | cons x rest ih =>
    intro pre hx
    obtain ⟨fn, body⟩ := x
    simp only [parse_epw_imag_iso]
    cases h1 : imagIsoTemp? pre fn with
    | none =>
      simp only [Option.elim]
      exact ih pre (fun y hy => hx y (List.mem_cons_of_mem _ hy))
    | some T =>
      simp only [Option.elim]
      have hb : (loadtxtSkip1 body).isSome = true :=
        hx (fn, body) (List.mem_cons_self _ _) (by rw [h1]; rfl)
      obtain ⟨g, hg⟩ := Option.isSome_iff_exists.mp hb
      rw [hg]
      simp only [Option.some_bind]
      have hr : (parse_epw_imag_iso rest pre).isSome = true :=
        ih pre (fun y hy => hx y (List.mem_cons_of_mem _ hy))
      obtain ⟨acc, hacc⟩ := Option.isSome_iff_exists.mp hr
      rw [hacc]
      rfl

/-- C8: `parse_epw_imag_iso` keys its result exactly by the temperatures
of the filenames matching `PREFIX.imag_iso_DDD.DD`, in mapping order; a
non-matching filename is skipped without being read and can never cause
a failure; and on the concrete mapping with matching name
`aiida.imag_iso_010.00` and non-matching name `notes.txt` the result has
exactly one entry, keyed `10.0`. -/
theorem parse_epw_imag_iso_spec :
    (∀ (fc : List (List Char × List Char)) (pre : List Char) res,
      parse_epw_imag_iso fc pre = some res →
      res.map Prod.fst = fc.filterMap (fun x => imagIsoTemp? pre x.1)) ∧
    (∀ (fc : List (List Char × List Char)) (pre : List Char),
      (∀ x ∈ fc, (imagIsoTemp? pre x.1).isSome = true →
        (loadtxtSkip1 x.2).isSome = true) →
      (parse_epw_imag_iso fc pre).isSome = true) ∧
    (parse_epw_imag_iso
        [("aiida.imag_iso_010.00".data, "# header\n1.0 2.0".data),
         ("notes.txt".data, "arbitrary junk ###".data)] "aiida".data =
      some [(10, [[1, 2]])]) :=
  ⟨parse_epw_imag_iso_keys_aux, parse_epw_imag_iso_total, by decide⟩

/-- C8 witness: the key-exactness statement applied to the concrete
two-file mapping. -/
theorem parse_epw_imag_iso_spec_witness :
    [((10 : ℚ), [[(1 : ℚ), 2]])].map Prod.fst =
      [("aiida.imag_iso_010.00".data, "# header\n1.0 2.0".data),
       ("notes.txt".data, "arbitrary junk ###".data)].filterMap
        (fun x => imagIsoTemp? "aiida".data x.1) :=
  parse_epw_imag_iso_spec.1
    [("aiida.imag_iso_010.00".data, "# header\n1.0 2.0".data),
     ("notes.txt".data, "arbitrary junk ###".data)] "aiida".data
    [((10 : ℚ), [[(1 : ℚ), 2]])] (by decide)

theorem optMapM_rowToFloats_all (gs : List (List Char × List Char))
    (h : ∀ g ∈ gs, (pyFloat? g.1).isSome = true ∧ (pyFloat? g.2).isSome = true) :
    optMapM rowToFloats gs =
      some (gs.map fun g => ((pyFloat? g.1).getD 0, (pyFloat? g.2).getD 0)) := by
  induction gs with
  | nil => simp [optMapM]
  | cons g rest ih =>
    obtain ⟨h1, h2⟩ := h g (List.mem_cons_self _ _)
    obtain ⟨a, ha⟩ := Option.isSome_iff_exists.mp h1
    obtain ⟨b, hb⟩ := Option.isSome_iff_exists.mp h2
    simp only [optMapM, rowToFloats, ha, hb, Option.some_bind, Option.map_some']
    rw [ih (fun y hy => h y (List.mem_cons_of_mem _ hy))]
    simp [ha, hb]

/-- C10 counterexample: on the input `" . 1 2 3.4 5\n"` the row pattern
matches with first capture group `"."`, whose float conversion raises
`ValueError` - `parse_epw_max_eigenvalue` is not exception-free. -/
theorem parse_epw_max_eigenvalue_raises_counterexample :
    parse_epw_max_eigenvalue " . 1 2 3.4 5\n".data = none := by decide

/-- C10 (amended): `parse_epw_max_eigenvalue` depends only on the
portion of the text preceding the first occurrence of the marker
`"Finish: Solving (isotropic) linearized Eliashberg"`; when no row
matches in that portion it returns the empty `max_eigenvalue` array
rather than failing; and whenever every matched capture group is a valid
float literal it returns exactly the (temperature, eigenvalue) pairs of
the matches - it can raise only when a matched group (such as a lone
`"."`) fails float conversion. -/
theorem parse_epw_max_eigenvalue_spec (s : List Char) :
    (∀ t : List Char, beforeSeq markerFinish s = beforeSeq markerFinish t →
      parse_epw_max_eigenvalue s = parse_epw_max_eigenvalue t) ∧
    (findRows (beforeSeq markerFinish s).length (beforeSeq markerFinish s) = [] →
      parse_epw_max_eigenvalue s = some []) ∧
    (∀ gs, findRows (beforeSeq markerFinish s).length (beforeSeq markerFinish s) = gs →
      (∀ g ∈ gs, (pyFloat? g.1).isSome = true ∧ (pyFloat? g.2).isSome = true) →
      parse_epw_max_eigenvalue s =
        some (gs.map fun g => ((pyFloat? g.1).getD 0, (pyFloat? g.2).getD 0))) := by
  refine ⟨?_, ?_, ?_⟩
  · intro t ht
    rw [parse_epw_max_eigenvalue, parse_epw_max_eigenvalue, ht]
  · intro h0
    rw [parse_epw_max_eigenvalue, h0]
    rfl
  · intro gs hgs hall
    rw [parse_epw_max_eigenvalue, hgs]
    exact optMapM_rowToFloats_all gs hall

/-- C10 witness: a one-row stdout fragment whose match converts
cleanly. -/
theorem parse_epw_max_eigenvalue_spec_witness :
    parse_epw_max_eigenvalue "   5.00  1.25  10  0.001  12\n".data =
      some ([(("5.00".data : List Char), ("1.25".data : List Char))].map
        fun g => ((pyFloat? g.1).getD 0, (pyFloat? g.2).getD 0)) :=
  (parse_epw_max_eigenvalue_spec "   5.00  1.25  10  0.001  12\n".data).2.2
    [("5.00".data, "1.25".data)] (by decide) (by decide)

end AiidaEpw
